import Mathlib

/-!
Verification development for the `pfc` prefix-compression tool.

The repository consists of a line-oriented driver (`pfc.py`) that threads a
rolling `prior` string through a stream of lines, applying a pairwise codec
(`codec.encode` / `codec.decode`) to each stripped line.  Python strings are
embedded as `List Char`; the driver loop is embedded as structural recursion
over the list of input lines, with exceptions modelled by `Except`.
-/

/-- Python strings are modelled as lists of characters. -/
abbrev Str := List Char

deriving instance DecidableEq for Except

/-- The two operations selectable on the command line of `pfc.py`
(`args.operation` is one of `compress`, `expand`). -/
inductive Mode where
  | compress
  | expand
  deriving DecidableEq, Repr

/-- The fault taxonomy of the spec: `MalformedRecord` from `decode`,
`PrefixLengthOverflow` from `encode`.  Python exceptions are modelled as
`Except Fault` values. -/
inductive Fault where
  | malformedRecord
  | prefixLengthOverflow
  deriving DecidableEq, Repr

/-- Whether a character counts as surrounding whitespace for the driver's
`line.strip()`: the characters for which Python's `str.isspace()` holds,
which `str.strip()` removes — tab through carriage return (U+0009–U+000D),
the ASCII separators U+001C–U+001F, space, next line U+0085, no-break space
U+00A0, Ogham space U+1680, the Unicode spaces U+2000–U+200A, line and
paragraph separators U+2028/U+2029, narrow no-break space U+202F, medium
mathematical space U+205F, and ideographic space U+3000. -/
def isWs (c : Char) : Bool :=
  decide ((9 ≤ c.toNat ∧ c.toNat ≤ 13) ∨ (28 ≤ c.toNat ∧ c.toNat ≤ 31) ∨ c.toNat = 32 ∨
    c.toNat = 133 ∨ c.toNat = 160 ∨ c.toNat = 5760 ∨
    (8192 ≤ c.toNat ∧ c.toNat ≤ 8202) ∨ c.toNat = 8232 ∨ c.toNat = 8233 ∨
    c.toNat = 8239 ∨ c.toNat = 8287 ∨ c.toNat = 12288)

/-- Embedding of `line.strip()`: drop whitespace from the front, then from
the back (via reversal). -/
def strip (s : Str) : Str := ((s.dropWhile isWs).reverse.dropWhile isWs).reverse

/-- Modelled from the spec: the `codec` module imported by `pfc.py` is not
part of the sources, so the shared-prefix computation follows §4.1 step 1:
the length of the longest common prefix of `word` and `prior`, scanning
character by character until a mismatch or either string ends. -/
def lcpLen : Str → Str → Nat
  | c :: cs, d :: ds => if c = d then lcpLen cs ds + 1 else 0
  | _, _ => 0

/-- Modelled from the spec: base code point of the single-character count
encoding (`chr(33 + n)`, §3). -/
def BASE : Nat := 33

/-- Modelled from the spec: maximum representable shared-prefix length for
the single-character count encoding (lengths 0 through 94, §3). -/
def MAX_K : Nat := 94

/-- Modelled from the spec: the fixed reversible mapping from a count to a
single printable character, integer `n` goes to the character at code point
`BASE + n`. -/
def countChar (k : Nat) : Char := Char.ofNat (BASE + k)

/-- Modelled from the spec: inverse of the fixed mapping, recovering the
count from the code point of the marker character. -/
def decodeCount (c : Char) : Nat := c.toNat - BASE

namespace codec

/-- Modelled from the spec: `codec.encode(word, prior)` (§4.1).  Compute the
shared-prefix length `k`, encode it as one character, and append the
unshared suffix `word[k:]` verbatim; a `k` beyond the representable range is
the `PrefixLengthOverflow` fault, never wrapped or truncated. -/
def encode (word prior : Str) : Except Fault Str :=
  let k := lcpLen word prior
  if k ≤ MAX_K then Except.ok (countChar k :: word.drop k)
  else Except.error Fault.prefixLengthOverflow

/-- Modelled from the spec: `codec.decode(encoded_record, prior)` (§4.1).
An empty record is the `MalformedRecord` fault; otherwise decode the first
character to `k` and return `prior[0:k]` followed by the remainder, faulting
when `k` exceeds `len(prior)`. -/
def decode (record prior : Str) : Except Fault Str :=
  match record with
  | [] => Except.error Fault.malformedRecord
  | c :: rest =>
    if decodeCount c ≤ prior.length then Except.ok (prior.take (decodeCount c) ++ rest)
    else Except.error Fault.malformedRecord

end codec

/-- The single codec call selected by `args.operation` in `pfc.py`:
`codec.encode(word, prior)` under `compress`, `codec.decode(word, prior)`
under `expand`. -/
def codecApply (op : Mode) (word prior : Str) : Except Fault Str :=
  match op with
  | Mode.compress => codec.encode word prior
  | Mode.expand => codec.decode word prior

/-- The update of `prior` at the end of one loop iteration of `pfc.py`:
`prior = word` under `compress`, `prior = converted` under `expand`. -/
def nextPrior (op : Mode) (word converted : Str) : Str :=
  match op with
  | Mode.compress => word
  | Mode.expand => converted

/-- One iteration of the loop in `main` of `pfc.py`: strip the line, apply
the selected codec operation, and pair the printed value with the new
`prior`; a codec fault aborts the iteration. -/
def driverStep (op : Mode) (prior line : Str) : Except Fault (Str × Str) :=
  match codecApply op (strip line) prior with
  | Except.error e => Except.error e
  | Except.ok converted => Except.ok (converted, nextPrior op (strip line) converted)

/-- The loop of `main` in `pfc.py` from a given `prior`: the list of lines
printed so far, and the fault (if any) that halted the loop.  An uncaught
exception stops the stream, so nothing is emitted for the faulting line or
any later line. -/
def runLines (op : Mode) : Str → List Str → List Str × Option Fault
  | _, [] => ([], none)
  | prior, line :: rest =>
    match driverStep op prior line with
    | Except.error e => ([], some e)
    | Except.ok (converted, prior2) =>
      let r := runLines op prior2 rest
      (converted :: r.1, r.2)

/-- Embedding of `main` in `pfc.py`: the loop starting from `prior = ""`. -/
def mainRun (op : Mode) (lines : List Str) : List Str × Option Fault :=
  runLines op [] lines

/-- The newline appended to each printed value by `print`. -/
def nl : Char := '\n'

/-- The character stream written to `outfile`: each printed value followed
by a newline. -/
def renderOutput (outs : List Str) : Str := (outs.map (fun o => o ++ [nl])).flatten

/-- The full output stream of `main` of `pfc.py`. -/
def mainOutput (op : Mode) (lines : List Str) : Str := renderOutput (mainRun op lines).1

/-- The value held by `prior` when line `i` is processed: the initial prior
for `i = 0`, and otherwise the value stored after line `i - 1` (the stripped
word under `compress`, the converted output under `expand`). -/
def priorBefore (op : Mode) (p0 : Str) (lines outs : List Str) : Nat → Str
  | 0 => p0
  | j + 1 => nextPrior op (strip (lines.getD j [])) (outs.getD j [])

/-- Computable lexicographic (code-point) comparison on embedded strings,
used to state the sortedness hypothesis of the round-trip law. -/
def lexLe : Str → Str → Bool
  | [], _ => true
  | _ :: _, [] => false
  | c :: cs, d :: ds => if c < d then true else if c = d then lexLe cs ds else false

/-- A word sequence is sorted when each adjacent pair is lexicographically
non-decreasing. -/
def sortedLex (ws : List Str) : Prop := List.Chain' (fun a b => lexLe a b = true) ws

/-- Every adjacent pair of the word sequence shares a prefix short enough
for the single-character count encoding. -/
def adjLcpBounded (ws : List Str) : Prop :=
  List.Chain' (fun a b => lcpLen b a ≤ MAX_K) ws

/-- The same bound, threaded from an explicit initial prior exactly as the
driver threads it. -/
def lcpBoundedFrom : Str → List Str → Prop
  | _, [] => True
  | p, w :: ws => lcpLen w p ≤ MAX_K ∧ lcpBoundedFrom w ws

/-- A word of 95 identical characters: paired with itself, its shared-prefix
length exceeds the maximum representable count. -/
def wordA95 : Str := List.replicate 95 'a'

/-- Two identical 95-character words: a sorted, stripped input stream whose
adjacent shared prefix is longer than the count encoding can represent. -/
def W95 : List Str := [wordA95, wordA95]

/-- The spec's concrete scenario 1: `["apple", "application", "apply"]`. -/
def Wapple : List Str :=
  [['a', 'p', 'p', 'l', 'e'],
   ['a', 'p', 'p', 'l', 'i', 'c', 'a', 't', 'i', 'o', 'n'],
   ['a', 'p', 'p', 'l', 'y']]

/-- Statement that `k` is a common-prefix length of `xs` and `ys`, and no
longer common prefix exists: the characterisation of "longest common prefix
length" used by the encode postcondition. -/
def isMaxSharedLen (k : Nat) (xs ys : Str) : Prop :=
  k ≤ xs.length ∧ k ≤ ys.length ∧ xs.take k = ys.take k ∧
    ∀ j, j ≤ xs.length → j ≤ ys.length → xs.take j = ys.take j → j ≤ k

theorem lcpLen_le_left : ∀ xs ys : Str, lcpLen xs ys ≤ xs.length
  | [], [] => Nat.le_refl 0
  | [], _ :: _ => Nat.le_refl 0
  | _ :: _, [] => Nat.zero_le _
  | c :: cs, d :: ds => by
    by_cases h : c = d
    · simp only [lcpLen, if_pos h, List.length_cons]
      exact Nat.succ_le_succ (lcpLen_le_left cs ds)
    · simp only [lcpLen, if_neg h]
      exact Nat.zero_le _

theorem lcpLen_le_right : ∀ xs ys : Str, lcpLen xs ys ≤ ys.length
  | [], [] => Nat.le_refl 0
  | [], _ :: _ => Nat.zero_le _
  | _ :: _, [] => Nat.le_refl 0
  | c :: cs, d :: ds => by
    by_cases h : c = d
    · simp only [lcpLen, if_pos h, List.length_cons]
      exact Nat.succ_le_succ (lcpLen_le_right cs ds)
    · simp only [lcpLen, if_neg h]
      exact Nat.zero_le _

theorem take_lcpLen : ∀ xs ys : Str, xs.take (lcpLen xs ys) = ys.take (lcpLen xs ys)
  | [], ys => by cases ys <;> rfl
  | _ :: _, [] => rfl
  | c :: cs, d :: ds => by
    by_cases h : c = d
    · have hl : lcpLen (c :: cs) (d :: ds) = lcpLen cs ds + 1 := by simp [lcpLen, h]
      rw [hl, List.take_succ_cons, List.take_succ_cons, take_lcpLen cs ds, h]
    · have hl : lcpLen (c :: cs) (d :: ds) = 0 := by simp [lcpLen, h]
      rw [hl]
      rfl

theorem lcpLen_maximal : ∀ (xs ys : Str) (j : Nat),
    j ≤ xs.length → j ≤ ys.length → xs.take j = ys.take j → j ≤ lcpLen xs ys
  | _, _, 0, _, _, _ => Nat.zero_le _
  | [], _, j + 1, hx, _, _ => absurd hx (by simp)
  | _ :: _, [], j + 1, _, hy, _ => absurd hy (by simp)
  | c :: cs, d :: ds, j + 1, hx, hy, ht => by
    simp only [List.take_succ_cons, List.cons.injEq] at ht
    simp only [lcpLen, if_pos ht.1]
    exact Nat.succ_le_succ
      (lcpLen_maximal cs ds j (Nat.le_of_succ_le_succ (by simpa using hx))
        (Nat.le_of_succ_le_succ (by simpa using hy)) ht.2)

theorem lcpLen_isMax (xs ys : Str) : isMaxSharedLen (lcpLen xs ys) xs ys :=
  ⟨lcpLen_le_left xs ys, lcpLen_le_right xs ys, take_lcpLen xs ys, lcpLen_maximal xs ys⟩

theorem lcpLen_nil_right (w : Str) : lcpLen w [] = 0 := by cases w <;> rfl

theorem lcpLen_self : ∀ xs : Str, lcpLen xs xs = xs.length
  | [] => rfl
  | c :: cs => by simp [lcpLen, lcpLen_self cs]

theorem toNat_countChar {k : Nat} (h : k ≤ MAX_K) : (countChar k).toNat = BASE + k := by
  have hv : (BASE + k).isValidChar := by
    refine Or.inl ?_
    have : k ≤ 94 := h
    simp only [BASE]
    omega
  simp only [countChar, Char.ofNat, dif_pos hv, Char.ofNatAux, Char.toNat]
  rfl

theorem decodeCount_countChar {k : Nat} (h : k ≤ MAX_K) : decodeCount (countChar k) = k := by
  simp [decodeCount, toNat_countChar h, BASE]

example : strip ['\x1c', 'a'] = ['a'] := by decide
example : strip [' ', 'a', 'b', '\n'] = ['a', 'b'] := by decide
example : strip [' ', 'c', ' '] = ['c'] := by decide
example : codec.encode ['a', 'b'] [] = Except.ok ['!', 'a', 'b'] := by decide
example : codec.encode ['a', 'b', 'c'] ['a', 'b'] = Except.ok ['#', 'c'] := by decide
example : codec.decode ['#', 'c'] ['a', 'b'] = Except.ok ['a', 'b', 'c'] := by decide
example : codec.decode [] ['a'] = Except.error Fault.malformedRecord := by decide
example :
    mainRun Mode.compress [['c', 'a', 't'], ['c', 'a', 't']] =
      ([['!', 'c', 'a', 't'], ['$']], none) := by decide
example :
    mainRun Mode.expand [['!', 'c', 'a', 't'], ['$']] =
      ([['c', 'a', 't'], ['c', 'a', 't']], none) := by decide

/-- C2: Pairwise round-trip: for every word and prior whose shared-prefix
length is within the supported encoding range, decoding the encoding of the
word against the same prior returns the word. -/
theorem pairwise_round_trip (word prior : Str) (h : lcpLen word prior ≤ MAX_K) :
    (codec.encode word prior).bind (fun r => codec.decode r prior) = Except.ok word := by
  have henc : codec.encode word prior =
      Except.ok (countChar (lcpLen word prior) :: word.drop (lcpLen word prior)) := by
    simp [codec.encode, h]
  rw [henc]
  show codec.decode (countChar (lcpLen word prior) :: word.drop (lcpLen word prior)) prior =
    Except.ok word
  simp only [codec.decode, decodeCount_countChar h, if_pos (lcpLen_le_right word prior)]
  rw [← take_lcpLen]
  exact congrArg Except.ok (List.take_append_drop _ _)

/-- Witness for C2 at `word = "ab"`, `prior = "ac"`. -/
theorem pairwise_round_trip_witness :
    lcpLen ['a', 'b'] ['a', 'c'] ≤ MAX_K ∧
      (codec.encode ['a', 'b'] ['a', 'c']).bind (fun r => codec.decode r ['a', 'c']) =
        Except.ok ['a', 'b'] :=
  ⟨by decide, pairwise_round_trip ['a', 'b'] ['a', 'c'] (by decide)⟩

/-- C3: Encode postcondition: for `k` in the supported range, the encoding is
the count marker for `k` followed by `word[k:]` verbatim, the marker mapping
is reversible, and `k` is the length of the longest common prefix of the word
and the prior (in particular `0 ≤ k ≤ min(len(word), len(prior))`). -/
theorem encode_postcondition (word prior : Str) (h : lcpLen word prior ≤ MAX_K) :
    codec.encode word prior =
      Except.ok (countChar (lcpLen word prior) :: word.drop (lcpLen word prior)) ∧
    decodeCount (countChar (lcpLen word prior)) = lcpLen word prior ∧
    isMaxSharedLen (lcpLen word prior) word prior :=
  ⟨by simp [codec.encode, h], decodeCount_countChar h, lcpLen_isMax word prior⟩

/-- Witness for C3 at `word = "ap"`, `prior = "aq"`. -/
theorem encode_postcondition_witness :
    lcpLen ['a', 'p'] ['a', 'q'] ≤ MAX_K ∧
      (codec.encode ['a', 'p'] ['a', 'q'] =
        Except.ok (countChar (lcpLen ['a', 'p'] ['a', 'q']) ::
          (['a', 'p'] : Str).drop (lcpLen ['a', 'p'] ['a', 'q'])) ∧
      decodeCount (countChar (lcpLen ['a', 'p'] ['a', 'q'])) = lcpLen ['a', 'p'] ['a', 'q'] ∧
      isMaxSharedLen (lcpLen ['a', 'p'] ['a', 'q']) ['a', 'p'] ['a', 'q']) :=
  ⟨by decide, encode_postcondition ['a', 'p'] ['a', 'q'] (by decide)⟩

/-- C4: Decode postcondition: a non-empty record whose first character
decodes to `k ≤ len(prior)` decodes to `prior[0:k]` followed by the rest of
the record. -/
theorem decode_postcondition (c : Char) (rest prior : Str) (h : decodeCount c ≤ prior.length) :
    codec.decode (c :: rest) prior = Except.ok (prior.take (decodeCount c) ++ rest) := by
  simp [codec.decode, h]

/-- Witness for C4 at `record = "#c"`, `prior = "ab"`. -/
theorem decode_postcondition_witness :
    decodeCount '#' ≤ (['a', 'b'] : Str).length ∧
      codec.decode ['#', 'c'] ['a', 'b'] =
        Except.ok ((['a', 'b'] : Str).take (decodeCount '#') ++ ['c']) :=
  ⟨by decide, decode_postcondition '#' ['c'] ['a', 'b'] (by decide)⟩

/-- C5: Decode fault condition: decode raises `MalformedRecord` exactly when
the record is empty or its decoded count exceeds the prior's length, and in
every other case it returns a word without fault. -/
theorem decode_fault_condition (record prior : Str) :
    (codec.decode record prior = Except.error Fault.malformedRecord ↔
      record = [] ∨ ∃ c rest, record = c :: rest ∧ prior.length < decodeCount c) ∧
    (¬(record = [] ∨ ∃ c rest, record = c :: rest ∧ prior.length < decodeCount c) →
      ∃ word, codec.decode record prior = Except.ok word) := by
  cases record with
  | nil =>
    refine ⟨by simp [codec.decode], fun hn => absurd (Or.inl rfl) hn⟩
  | cons c rest =>
    by_cases hk : decodeCount c ≤ prior.length
    · refine ⟨⟨fun habs => ?_, ?_⟩,
        fun _ => ⟨prior.take (decodeCount c) ++ rest, by simp [codec.decode, hk]⟩⟩
      · simp [codec.decode, hk] at habs
      · rintro (h | ⟨c', rest', heq, hgt⟩)
        · exact absurd h (by simp)
        · injection heq with h1 h2
          subst h1
          omega
    · refine ⟨⟨fun _ => Or.inr ⟨c, rest, rfl, Nat.lt_of_not_le hk⟩, fun _ => ?_⟩, fun hn => ?_⟩
      · simp [codec.decode, hk]
      · exact absurd (Or.inr ⟨c, rest, rfl, Nat.lt_of_not_le hk⟩) hn

/-- Witness for C5: decoding an empty record against prior `"x"` is the
`MalformedRecord` fault. -/
theorem decode_fault_condition_witness :
    codec.decode [] ['x'] = Except.error Fault.malformedRecord :=
  (decode_fault_condition [] ['x']).1.mpr (Or.inl rfl)

/-- C6: Encode overflow fault: when the shared-prefix length exceeds the
maximum representable count, encode reports `PrefixLengthOverflow` (it never
wraps or truncates the count into a record). -/
theorem encode_overflow (word prior : Str) (h : MAX_K < lcpLen word prior) :
    codec.encode word prior = Except.error Fault.prefixLengthOverflow := by
  have hn : ¬ lcpLen word prior ≤ MAX_K := Nat.not_le.mpr h
  simp [codec.encode, hn]

/-- Witness for C6 at a pair of identical 95-character words. -/
theorem encode_overflow_witness :
    MAX_K < lcpLen wordA95 wordA95 ∧
      codec.encode wordA95 wordA95 = Except.error Fault.prefixLengthOverflow := by
  have h : MAX_K < lcpLen wordA95 wordA95 := by
    rw [lcpLen_self]
    simp [wordA95, MAX_K]
  exact ⟨h, encode_overflow wordA95 wordA95 h⟩

theorem driverStep_ok (op : Mode) (p0 line conv p2 : Str)
    (h : driverStep op p0 line = Except.ok (conv, p2)) :
    codecApply op (strip line) p0 = Except.ok conv ∧ p2 = nextPrior op (strip line) conv := by
  unfold driverStep at h
  cases hc : codecApply op (strip line) p0 with
  | error e =>
    rw [hc] at h
    simp at h
  | ok a =>
    rw [hc] at h
    simp only [Except.ok.injEq, Prod.mk.injEq] at h
    obtain ⟨h1, h2⟩ := h
    subst h1
    exact ⟨rfl, h2.symm⟩

theorem driverStep_error (op : Mode) (p0 line : Str) (e : Fault)
    (h : driverStep op p0 line = Except.error e) :
    codecApply op (strip line) p0 = Except.error e := by
  unfold driverStep at h
  cases hc : codecApply op (strip line) p0 with
  | error a =>
    rw [hc] at h
    simp only [Except.error.injEq] at h
    rw [h]
  | ok a =>
    rw [hc] at h
    simp at h

theorem runLines_cons_error (op : Mode) (p0 line : Str) (rest : List Str) (e : Fault)
    (hs : driverStep op p0 line = Except.error e) :
    runLines op p0 (line :: rest) = ([], some e) := by
  simp [runLines, hs]

theorem runLines_cons_ok (op : Mode) (p0 line conv p2 : Str) (rest : List Str)
    (hs : driverStep op p0 line = Except.ok (conv, p2)) :
    runLines op p0 (line :: rest) =
      (conv :: (runLines op p2 rest).1, (runLines op p2 rest).2) := by
  simp [runLines, hs]

theorem priorBefore_cons (op : Mode) (p0 line conv : Str) (lines outs : List Str) (j : Nat) :
    priorBefore op p0 (line :: lines) (conv :: outs) (j + 1) =
      priorBefore op (nextPrior op (strip line) conv) lines outs j := by
  cases j with
  | zero => rfl
  | succ j2 => rfl

theorem runLines_ok_spec (op : Mode) : ∀ (lines : List Str) (p0 : Str),
    (runLines op p0 lines).2 = none →
    (runLines op p0 lines).1.length = lines.length ∧
    ∀ i, i < lines.length →
      codecApply op (strip (lines.getD i []))
          (priorBefore op p0 lines (runLines op p0 lines).1 i) =
        Except.ok ((runLines op p0 lines).1.getD i [])
  | [], _, _ => ⟨rfl, fun i hi => absurd hi (by simp)⟩
  | line :: rest, p0, h => by
    cases hs : driverStep op p0 line with
    | error e =>
      rw [runLines_cons_error op p0 line rest e hs] at h
      exact absurd h (by simp)
    | ok cp =>
      obtain ⟨conv, p2⟩ := cp
      rw [runLines_cons_ok op p0 line conv p2 rest hs] at h ⊢
      simp only at h
      have ih := runLines_ok_spec op rest p2 h
      have hstep := driverStep_ok op p0 line conv p2 hs
      refine ⟨by simp [ih.1], ?_⟩
      intro i hi
      cases i with
      | zero =>
        simpa [priorBefore] using hstep.1
      | succ j =>
        have hj : j < rest.length := by simpa using hi
        rw [List.getD_cons_succ, List.getD_cons_succ, priorBefore_cons, ← hstep.2]
        exact ih.2 j hj

theorem runLines_fault_spec (op : Mode) : ∀ (lines : List Str) (p0 : Str) (e : Fault),
    (runLines op p0 lines).2 = some e →
    (runLines op p0 lines).1.length < lines.length ∧
    (∀ i, i < (runLines op p0 lines).1.length →
      codecApply op (strip (lines.getD i []))
          (priorBefore op p0 lines (runLines op p0 lines).1 i) =
        Except.ok ((runLines op p0 lines).1.getD i [])) ∧
    codecApply op (strip (lines.getD (runLines op p0 lines).1.length []))
        (priorBefore op p0 lines (runLines op p0 lines).1 (runLines op p0 lines).1.length) =
      Except.error e
  | [], _, _, h => by simp [runLines] at h
  | line :: rest, p0, e, h => by
    cases hs : driverStep op p0 line with
    | error e2 =>
      rw [runLines_cons_error op p0 line rest e2 hs] at h ⊢
      simp only [Option.some.injEq] at h
      subst h
      refine ⟨by simp, fun i hi => absurd hi (by simp), ?_⟩
      simpa [priorBefore] using driverStep_error op p0 line e2 hs
    | ok cp =>
      obtain ⟨conv, p2⟩ := cp
      rw [runLines_cons_ok op p0 line conv p2 rest hs] at h ⊢
      simp only at h
      have ih := runLines_fault_spec op rest p2 e h
      have hstep := driverStep_ok op p0 line conv p2 hs
      refine ⟨by simpa using ih.1, ?_, ?_⟩
      · intro i hi
        cases i with
        | zero =>
          simpa [priorBefore] using hstep.1
        | succ j =>
          have hj : j < (runLines op p2 rest).1.length := by simpa using hi
          rw [List.getD_cons_succ, List.getD_cons_succ, priorBefore_cons, ← hstep.2]
          exact ih.2.1 j hj
      · show codecApply op
            (strip ((line :: rest).getD ((runLines op p2 rest).1.length + 1) []))
            (priorBefore op p0 (line :: rest) (conv :: (runLines op p2 rest).1)
              ((runLines op p2 rest).1.length + 1)) = Except.error e
        rw [List.getD_cons_succ, priorBefore_cons, ← hstep.2]
        exact ih.2.2

/-- C7: Driver rolling-state invariant: `main` enters its loop with
`prior = ""`, and each successful iteration stores the stripped input word
(compress) or the converted output (expand) as the next `prior`. -/
theorem driver_rolling_state (op : Mode) (prior line converted prior2 : Str)
    (h : driverStep op prior line = Except.ok (converted, prior2)) :
    mainRun op = runLines op [] ∧
    (op = Mode.compress → prior2 = strip line) ∧
    (op = Mode.expand → prior2 = converted) := by
  have hnext := (driverStep_ok op prior line converted prior2 h).2
  refine ⟨rfl, fun hop => ?_, fun hop => ?_⟩ <;> subst hop <;> simpa [nextPrior] using hnext

/-- Witness for C7 at `op = compress`, `prior = ""`, `line = "a"`. -/
theorem driver_rolling_state_witness :
    driverStep Mode.compress [] ['a'] = Except.ok (['!', 'a'], ['a']) ∧
      (['a'] : Str) = strip ['a'] :=
  ⟨by decide,
    (driver_rolling_state Mode.compress [] ['a'] ['!', 'a'] ['a'] (by decide)).2.1 rfl⟩

/-- C8: Driver line discipline: on a fault-free run the driver emits exactly
one output per input line, in order; output `i` is the selected codec
operation applied to the stripped line `i` and the threaded prior; and the
output stream is each value followed by a newline. -/
theorem driver_line_discipline (op : Mode) (lines : List Str)
    (h : (mainRun op lines).2 = none) :
    (mainRun op lines).1.length = lines.length ∧
    (∀ i, i < lines.length →
      codecApply op (strip (lines.getD i []))
          (priorBefore op [] lines (mainRun op lines).1 i) =
        Except.ok ((mainRun op lines).1.getD i [])) ∧
    mainOutput op lines = ((mainRun op lines).1.map (fun o => o ++ [nl])).flatten :=
  ⟨(runLines_ok_spec op lines [] h).1, (runLines_ok_spec op lines [] h).2, rfl⟩

/-- Witness for C8 on the two-line compress run `["a", "ab"]`. -/
theorem driver_line_discipline_witness :
    (mainRun Mode.compress [['a'], ['a', 'b']]).2 = none ∧
      (mainRun Mode.compress [['a'], ['a', 'b']]).1.length = 2 :=
  ⟨by decide, (driver_line_discipline Mode.compress [['a'], ['a', 'b']] (by decide)).1⟩

/-- C9: Fault propagation: when a run faults, the emitted outputs are
exactly the successful conversions of the lines before the faulting one
(fewer outputs than lines), and the codec call on the faulting line produced
the fault; nothing is emitted for it or any later line. -/
theorem fault_propagation (op : Mode) (lines : List Str) (e : Fault)
    (h : (mainRun op lines).2 = some e) :
    (mainRun op lines).1.length < lines.length ∧
    (∀ i, i < (mainRun op lines).1.length →
      codecApply op (strip (lines.getD i []))
          (priorBefore op [] lines (mainRun op lines).1 i) =
        Except.ok ((mainRun op lines).1.getD i [])) ∧
    codecApply op (strip (lines.getD (mainRun op lines).1.length []))
        (priorBefore op [] lines (mainRun op lines).1 (mainRun op lines).1.length) =
      Except.error e :=
  runLines_fault_spec op lines [] e h

/-- Witness for C9 on an expand run whose second record claims a prefix of
length 24 against a prior of length 1. -/
theorem fault_propagation_witness :
    (mainRun Mode.expand [['!', 'a'], ['9', 'x']]).2 = some Fault.malformedRecord ∧
      (mainRun Mode.expand [['!', 'a'], ['9', 'x']]).1.length <
        ([['!', 'a'], ['9', 'x']] : List Str).length :=
  ⟨by decide,
    (fault_propagation Mode.expand [['!', 'a'], ['9', 'x']] Fault.malformedRecord (by decide)).1⟩

/-- C10: Determinism of the driver: two runs of `main` with the same mode
and the same input lines produce the same outputs. -/
theorem driver_deterministic (op : Mode) (lines : List Str)
    (out1 out2 : List Str × Option Fault)
    (h1 : mainRun op lines = out1) (h2 : mainRun op lines = out2) : out1 = out2 :=
  h1.symm.trans h2

/-- Witness for C10 on a one-line compress run. -/
theorem driver_deterministic_witness :
    mainRun Mode.compress [['a']] = ([['!', 'a']], none) ∧
      (([['!', 'a']], none) : List Str × Option Fault) = ([['!', 'a']], none) :=
  ⟨by decide,
    driver_deterministic Mode.compress [['a']] ([['!', 'a']], none) ([['!', 'a']], none)
      (by decide) (by decide)⟩

theorem length_dropWhile_le (p : Char → Bool) : ∀ l : Str, (l.dropWhile p).length ≤ l.length
  | [] => Nat.le_refl 0
  | a :: t => by
    by_cases hp : p a
    · rw [List.dropWhile_cons_of_pos hp]
      exact Nat.le_succ_of_le (length_dropWhile_le p t)
    · rw [List.dropWhile_cons_of_neg hp]

theorem dropWhile_eq_self_of_length (p : Char → Bool) :
    ∀ l : Str, (l.dropWhile p).length = l.length → l.dropWhile p = l
  | [], _ => rfl
  | a :: t, h => by
    by_cases hp : p a
    · rw [List.dropWhile_cons_of_pos hp] at h
      have := length_dropWhile_le p t
      simp only [List.length_cons] at h
      omega
    · rw [List.dropWhile_cons_of_neg hp]

theorem dropWhile_eq_self_of_head (p : Char → Bool) :
    ∀ l : Str, (∀ c, l.head? = some c → p c = false) → l.dropWhile p = l
  | [], _ => rfl
  | a :: t, h => by
    have ha : p a = false := h a rfl
    rw [List.dropWhile_cons_of_neg (by simp [ha])]

theorem head_not_of_dropWhile_eq_self (p : Char → Bool) :
    ∀ l : Str, l.dropWhile p = l → ∀ c, l.head? = some c → p c = false
  | [], _, c, hc => by simp at hc
  | a :: t, h, c, hc => by
    simp only [List.head?_cons, Option.some.injEq] at hc
    subst hc
    by_cases hp : p a
    · rw [List.dropWhile_cons_of_pos hp] at h
      have hle := length_dropWhile_le p t
      have := congrArg List.length h
      simp only [List.length_cons] at this
      omega
    · simpa using hp

theorem strip_eq_self_of (s : Str)
    (h1 : ∀ c, s.head? = some c → isWs c = false)
    (h2 : ∀ c, s.getLast? = some c → isWs c = false) : strip s = s := by
  unfold strip
  rw [dropWhile_eq_self_of_head isWs s h1]
  rw [dropWhile_eq_self_of_head isWs s.reverse
    (fun c hc => h2 c (by rwa [List.head?_reverse] at hc))]
  exact List.reverse_reverse s

theorem strip_eq_self_parts (s : Str) (h : strip s = s) :
    s.dropWhile isWs = s ∧ s.reverse.dropWhile isWs = s.reverse := by
  unfold strip at h
  have hlen := congrArg List.length h
  have l1 := length_dropWhile_le isWs s
  have l2 := length_dropWhile_le isWs (s.dropWhile isWs).reverse
  simp only [List.length_reverse] at hlen l2
  have heq1 : (s.dropWhile isWs).length = s.length := by omega
  have ha : s.dropWhile isWs = s := dropWhile_eq_self_of_length isWs s heq1
  refine ⟨ha, ?_⟩
  rw [ha] at h
  have : s.reverse.dropWhile isWs = (s.reverse.dropWhile isWs).reverse.reverse :=
    (List.reverse_reverse _).symm
  rw [this, h]

theorem stripped_head (s : Str) (h : strip s = s) :
    ∀ c, s.head? = some c → isWs c = false :=
  head_not_of_dropWhile_eq_self isWs s (strip_eq_self_parts s h).1

theorem stripped_last (s : Str) (h : strip s = s) :
    ∀ c, s.getLast? = some c → isWs c = false := fun c hc =>
  head_not_of_dropWhile_eq_self isWs s.reverse (strip_eq_self_parts s h).2 c
    (by rwa [List.head?_reverse])

theorem getLast?_drop_ne : ∀ (w : Str) (k : Nat), w.drop k ≠ [] →
    (w.drop k).getLast? = w.getLast?
  | _, 0, _ => rfl
  | [], k + 1, h => by simp at h
  | a :: t, k + 1, h => by
    have h' : t.drop k ≠ [] := by simpa using h
    show (t.drop k).getLast? = (a :: t).getLast?
    rw [getLast?_drop_ne t k h']
    cases t with
    | nil => simp at h'
    | cons b ts => rw [List.getLast?_cons_cons]

theorem strip_marker_suffix (m : Char) (hm : isWs m = false) (w : Str)
    (hw : strip w = w) (k : Nat) : strip (m :: w.drop k) = m :: w.drop k := by
  apply strip_eq_self_of
  · intro c hc
    simp only [List.head?_cons, Option.some.injEq] at hc
    subst hc
    exact hm
  · intro c hc
    cases hdk : w.drop k with
    | nil =>
      rw [hdk] at hc
      simp only [List.getLast?_singleton, Option.some.injEq] at hc
      subst hc
      exact hm
    | cons d ds =>
      rw [hdk, List.getLast?_cons_cons, ← hdk] at hc
      rw [getLast?_drop_ne w k (by simp [hdk])] at hc
      exact stripped_last w hw c hc

theorem isWs_eq_false_of_toNat (c : Char) (h1 : 33 ≤ c.toNat) (h2 : c.toNat ≤ 127) :
    isWs c = false := by
  apply decide_eq_false
  rintro (⟨a, b⟩ | ⟨a, b⟩ | a | a | a | a | ⟨a, b⟩ | a | a | a | a | a) <;> omega

theorem isWs_countChar {k : Nat} (h : k ≤ MAX_K) : isWs (countChar k) = false :=
  isWs_eq_false_of_toNat _
    (by rw [toNat_countChar h]; exact Nat.le_add_right 33 _)
    (by
      rw [toNat_countChar h]
      show 33 + k ≤ 127
      have hk : k ≤ 94 := h
      omega)

theorem runLines_roundTrip : ∀ (ws : List Str) (p : Str),
    (∀ w ∈ ws, strip w = w) → lcpBoundedFrom p ws →
    (runLines Mode.compress p ws).2 = none ∧
    runLines Mode.expand p (runLines Mode.compress p ws).1 = (ws, none)
  | [], _, _, _ => ⟨rfl, rfl⟩
  | w :: ws, p, hstrip, hbound => by
    obtain ⟨hb1, hb2⟩ := hbound
    have hw : strip w = w := hstrip w (by simp)
    have ih := runLines_roundTrip ws w (fun x hx => hstrip x (by simp [hx])) hb2
    have hdsc : driverStep Mode.compress p w =
        Except.ok (countChar (lcpLen w p) :: w.drop (lcpLen w p), w) := by
      simp only [driverStep, codecApply, hw]
      simp [codec.encode, hb1, nextPrior]
    have hsr : strip (countChar (lcpLen w p) :: w.drop (lcpLen w p)) =
        countChar (lcpLen w p) :: w.drop (lcpLen w p) :=
      strip_marker_suffix _ (isWs_countChar hb1) w hw _
    have hdec : codec.decode (countChar (lcpLen w p) :: w.drop (lcpLen w p)) p =
        Except.ok w := by
      simp only [codec.decode, decodeCount_countChar hb1, if_pos (lcpLen_le_right w p)]
      rw [← take_lcpLen]
      exact congrArg Except.ok (List.take_append_drop _ _)
    have hdse : driverStep Mode.expand p (countChar (lcpLen w p) :: w.drop (lcpLen w p)) =
        Except.ok (w, w) := by
      simp only [driverStep, codecApply, hsr, hdec, nextPrior]
    have hc1 : (runLines Mode.compress p (w :: ws)).1 =
        (countChar (lcpLen w p) :: w.drop (lcpLen w p)) :: (runLines Mode.compress w ws).1 := by
      rw [runLines_cons_ok Mode.compress p w _ w ws hdsc]
    have hc2 : (runLines Mode.compress p (w :: ws)).2 = (runLines Mode.compress w ws).2 := by
      rw [runLines_cons_ok Mode.compress p w _ w ws hdsc]
    refine ⟨by rw [hc2]; exact ih.1, ?_⟩
    rw [hc1, runLines_cons_ok Mode.expand p _ w w _ hdse, ih.2]

theorem lcpBoundedFrom_of_chain : ∀ (w : Str) (ws : List Str),
    List.Chain' (fun a b => lcpLen b a ≤ MAX_K) (w :: ws) → lcpBoundedFrom w ws
  | _, [], _ => trivial
  | w, x :: ws, h => by
    rw [List.chain'_cons] at h
    exact ⟨h.1, lcpBoundedFrom_of_chain x ws h.2⟩

/-- C1 (amended): Stream round-trip: for every lexicographically sorted
sequence of whitespace-stripped words whose adjacent pairs share prefixes no
longer than the maximum representable count, running the driver in expand
mode on the compress-mode output yields exactly the original words (and the
compress run raises no fault). -/
theorem stream_round_trip (W : List Str)
    (hstrip : ∀ w ∈ W, strip w = w) (hsort : sortedLex W) (hbound : adjLcpBounded W) :
    (mainRun Mode.compress W).2 = none ∧
    mainRun Mode.expand (mainRun Mode.compress W).1 = (W, none) := by
  have hb : lcpBoundedFrom [] W := by
    cases W with
    | nil => trivial
    | cons w ws =>
      exact ⟨by rw [lcpLen_nil_right]; exact Nat.zero_le _,
        lcpBoundedFrom_of_chain w ws hbound⟩
  exact runLines_roundTrip W [] hstrip hb

theorem chain'_pair {R : Str → Str → Prop} (a b : Str) (h : R a b) :
    List.Chain' R [a, b] := by
  rw [List.chain'_cons]
  exact ⟨h, List.chain'_singleton b⟩

theorem chain'_triple {R : Str → Str → Prop} (a b c : Str) (h1 : R a b) (h2 : R b c) :
    List.Chain' R [a, b, c] := by
  rw [List.chain'_cons, List.chain'_cons]
  exact ⟨h1, h2, List.chain'_singleton c⟩

set_option maxRecDepth 10000 in
/-- Counterexample to C1 as stated: two identical 95-character words form a
sorted, whitespace-stripped sequence, yet compressing then expanding does
not reproduce them, because the first compress step past the 94-length bound
raises `PrefixLengthOverflow` and halts the stream. -/
theorem stream_round_trip_cex :
    strip wordA95 = wordA95 ∧ sortedLex W95 ∧
      mainRun Mode.expand (mainRun Mode.compress W95).1 ≠ (W95, none) :=
  ⟨by decide, chain'_pair _ _ (by decide), by decide⟩

set_option maxRecDepth 10000 in
/-- Witness for the amended C1 on the spec's scenario
`["apple", "application", "apply"]`. -/
theorem stream_round_trip_witness :
    (mainRun Mode.compress Wapple).2 = none ∧
      mainRun Mode.expand (mainRun Mode.compress Wapple).1 = (Wapple, none) :=
  stream_round_trip Wapple (by decide)
    (chain'_triple _ _ _ (by decide) (by decide))
    (chain'_triple _ _ _ (by decide) (by decide))
